import Mathlib

/-!
Verification development for the `ownership` repository.

The repository source (`src/ownership/src/main.rs`) is a narrated tutorial:
small example functions (`_interact_integer`, `_test`, `_clone`,
`_takes_and_gives_back`, `_calculate_length`, `main`, ...) walking through
ownership, move, clone and scope-based deallocation.  The specification
extracts from it a static ownership-and-move checker (Value Model, Binding
Table, Move Checker, Scope/Drop Planner, Diagnostic Reporter).  That checker
is not present under `src/` — only the tutorial examples that motivate it
are — so the checker below is modelled from the specification's words, while
the two pure Rust functions `_takes_and_gives_back` and `_calculate_length`
are embedded directly from the source.
-/

/-- Modelled from the spec: the Value Model's classification tag (§3, §4.1);
the checker itself is missing from `src/`.  `Copyable` covers the primitive
scalar kinds of the tutorial (`i32`, `bool`, `f64`, `char`), `MoveOnly` the
heap-backed kinds such as the growable string `String`. -/
inductive ValueKind where
  | Copyable : ValueKind
  | MoveOnly : ValueKind
deriving DecidableEq

/-- Modelled from the spec: a binding's ownership state (§3); missing from
`src/`.  Transitions are driven by the Move Checker and the Scope/Drop
Planner. -/
inductive BindingState where
  | Live : BindingState
  | Moved : BindingState
  | Dropped : BindingState
deriving DecidableEq

/-- Modelled from the spec: one variable in one scope (§3); missing from
`src/`.  `declared_at` is the index of the declaring instruction, used for
diagnostics and drop ordering; `moved_at` records the move-inducing
instruction for `UseAfterMove` diagnostics (the caused-by location). -/
structure Binding where
  name : String
  kind : ValueKind
  state : BindingState
  declared_at : Nat
  moved_at : Option Nat
deriving DecidableEq

/-- Modelled from the spec: the kinds of rule breach the Diagnostic Reporter
records (§3, §7); missing from `src/`.  `CopyOfMoveOnlyWithoutClone` and
`MoveOnlyWithDropAnnotatedAsCopy` are listed by the spec as conceptual only
(§4.4) and are never emitted by the checker. -/
inductive ViolationKind where
  | UseAfterMove : ViolationKind
  | DoubleBindingName : ViolationKind
  | UnknownIdentifier : ViolationKind
  | CopyOfMoveOnlyWithoutClone : ViolationKind
  | MoveOnlyWithDropAnnotatedAsCopy : ViolationKind
deriving DecidableEq

/-- Modelled from the spec: a recorded violation, serialized as
`{ kind, binding_name, location, caused_by_location? }` (§6); missing from
`src/`.  Locations are instruction indices. -/
structure Violation where
  kind : ViolationKind
  binding_name : String
  location : Nat
  caused_by : Option Nat
deriving DecidableEq

/-- Modelled from the spec: one release action emitted by the Scope/Drop
Planner (§4.4); missing from `src/`.  A binding is identified by its name
together with the index of its declaring instruction, which is unique per
binding across a pass. -/
structure Release where
  name : String
  declared_at : Nat
deriving DecidableEq

/-- Modelled from the spec: a Scope is the ordered sequence of bindings
created between entry and exit of a lexical block (§3), kept here in
declaration order; missing from `src/`. -/
abbrev Scope := List Binding

/-- Modelled from the spec: initializer expressions of the simplified IR
(§4.3); missing from `src/`.  `lit k` is a fresh value of kind `k` (such as
`String::from("hello")` or the literal `5`), `ident y` a bare identifier
(move-or-copy), `clone y` the explicit duplication call. -/
inductive Expr where
  | lit : ValueKind → Expr
  | ident : String → Expr
  | clone : String → Expr
deriving DecidableEq

/-- Modelled from the spec: the linear IR instruction sequence with block
markers that the Move Checker walks (§4.3); missing from `src/`.
`declare x e` is `let x = e`; `read y` is a non-consuming read of `y`
(printed, for example); `call args` passes each argument by value to a
callee whose formal parameters have the arguments' own kinds. -/
inductive Instr where
  | declare : String → Expr → Instr
  | read : String → Instr
  | call : List String → Instr
  | blockEnter : Instr
  | blockExit : Instr
deriving DecidableEq

/-- Modelled from the spec: the mutable state of one analysis pass — the
Binding Table (a stack of scopes, innermost first), the Diagnostic
Reporter's ordered violation list, the Scope/Drop Planner's emitted release
actions, and the index of the current instruction; missing from `src/`. -/
structure CheckState where
  scopes : List Scope
  violations : List Violation
  releases : List Release
  idx : Nat
deriving DecidableEq

/-- Modelled from the spec: Binding Table `lookup` — search
innermost-to-outermost scope for the named binding (§4.2); missing from
`src/`. -/
def lookupB (scopes : List Scope) (y : String) : Option Binding :=
  scopes.findSome? (fun s => s.find? (fun b => b.name == y))

/-- Modelled from the spec: apply `f` to the first binding named `y` of one
scope, leaving the rest untouched; missing from `src/`. -/
def updateScope (s : Scope) (y : String) (f : Binding → Binding) : Scope :=
  match s with
  | [] => []
  | b :: bs => if b.name == y then f b :: bs else b :: updateScope bs y f

/-- Modelled from the spec: whether a scope holds a binding named `y`;
missing from `src/`. -/
def scopeHas (s : Scope) (y : String) : Bool :=
  s.any (fun b => b.name == y)

/-- Modelled from the spec: apply `f` to the binding `lookup` finds for `y`
(innermost scope first); missing from `src/`. -/
def updateScopes (scopes : List Scope) (y : String) (f : Binding → Binding) :
    List Scope :=
  match scopes with
  | [] => []
  | s :: ss =>
    if scopeHas s y then updateScope s y f :: ss else s :: updateScopes ss y f

/-- Modelled from the spec: append one violation to the Diagnostic
Reporter's ordered sequence (report order = detection order, §4.5); missing
from `src/`. -/
def report (S : CheckState) (v : Violation) : CheckState :=
  { S with violations := S.violations ++ [v] }

/-- Modelled from the spec: the `Live → Moved` transition, recording
instruction `i` as the move-inducing location; missing from `src/`. -/
def markMoved (i : Nat) (c : Binding) : Binding :=
  { c with state := BindingState.Moved, moved_at := some i }

/-- Modelled from the spec: the best-effort recovery reset — treat the
offending binding as `Live` again after reporting (§4.3); missing from
`src/`. -/
def markLive (c : Binding) : Binding :=
  { c with state := BindingState.Live, moved_at := none }

/-- Modelled from the spec: a consuming read — the move-or-copy rule of
declaration-with-initializer and by-value argument passing (§4.3); missing
from `src/`.  A `Copyable` binding is left unchanged; a `Live` `MoveOnly`
binding transitions to `Moved` recording this instruction as the move; a
non-`Live` `MoveOnly` binding is flagged `UseAfterMove` (caused-by the
recorded move) and, per the recovery policy, treated as `Live` again after
reporting — and hence consumed by this very read.  An unknown identifier is
flagged and treated as an opaque value that is not further tracked. -/
def consumeRead (S : CheckState) (y : String) : CheckState × ValueKind :=
  match lookupB S.scopes y with
  | none =>
    (report S ⟨ViolationKind.UnknownIdentifier, y, S.idx, none⟩,
     ValueKind.Copyable)
  | some b =>
    match b.kind with
    | ValueKind.Copyable => (S, ValueKind.Copyable)
    | ValueKind.MoveOnly =>
      match b.state with
      | BindingState.Live =>
        let scopes2 := updateScopes S.scopes y (markMoved S.idx)
        ({ S with scopes := scopes2 }, ValueKind.MoveOnly)
      | _ =>
        let S2 := report S ⟨ViolationKind.UseAfterMove, y, S.idx, b.moved_at⟩
        let scopes2 := updateScopes S.scopes y (markMoved S.idx)
        ({ S2 with scopes := scopes2 }, ValueKind.MoveOnly)

/-- Modelled from the spec: a non-consuming read of a bound name (used as a
printed value, §4.3); missing from `src/`.  A `Live` binding is unchanged;
a `Moved`/`Dropped` binding is flagged `UseAfterMove` citing the recorded
move as caused-by, and reset to `Live` again after reporting (the spec's
best-effort recovery). -/
def plainRead (S : CheckState) (y : String) : CheckState :=
  match lookupB S.scopes y with
  | none => report S ⟨ViolationKind.UnknownIdentifier, y, S.idx, none⟩
  | some b =>
    match b.state with
    | BindingState.Live => S
    | _ =>
      let S2 := report S ⟨ViolationKind.UseAfterMove, y, S.idx, b.moved_at⟩
      { S2 with scopes := updateScopes S.scopes y markLive }

/-- Modelled from the spec: the explicit duplication call (§4.3); missing
from `src/`.  It reads the source binding without consuming it (so the
source stays `Live` when it was `Live`, and a non-`Live` source is flagged
and recovered like any other read) and yields a fresh value of the source's
kind. -/
def cloneRead (S : CheckState) (y : String) : CheckState × ValueKind :=
  match lookupB S.scopes y with
  | none =>
    (report S ⟨ViolationKind.UnknownIdentifier, y, S.idx, none⟩,
     ValueKind.Copyable)
  | some b => (plainRead S y, b.kind)

/-- Modelled from the spec: the synthetic disambiguated name the checker
uses to keep analysing after a `DoubleBindingName` (§7); missing from
`src/`. -/
def syntheticName (x : String) (i : Nat) : String :=
  x ++ "_" ++ toString i

/-- Modelled from the spec: Binding Table `declare` (§4.2) — fails with
`DoubleBindingName` if the name is already `Live` in the current scope, in
which case analysis continues with a disambiguated synthetic name; otherwise
creates a `Live` binding in the current (innermost) scope; missing from
`src/`. -/
def declareB (S : CheckState) (x : String) (k : ValueKind) : CheckState :=
  match S.scopes with
  | [] => S
  | top :: rest =>
    if top.any (fun b => b.name == x && b.state == BindingState.Live) then
      let S2 := report S ⟨ViolationKind.DoubleBindingName, x, S.idx, none⟩
      let nb : Binding :=
        ⟨syntheticName x S.idx, k, BindingState.Live, S.idx, none⟩
      { S2 with scopes := (top ++ [nb]) :: rest }
    else
      let nb : Binding := ⟨x, k, BindingState.Live, S.idx, none⟩
      { S with scopes := (top ++ [nb]) :: rest }

/-- Modelled from the spec: the Scope/Drop Planner (§4.2, §4.4); missing
from `src/`.  Given an exited scope it releases the still-`Live` bindings in
reverse declaration order, skipping `Copyable` bindings (nothing to
release); each released `MoveOnly` binding conceptually transitions to
`Dropped` as the scope's frame is discarded. -/
def dropPlan (s : Scope) : List Release :=
  (s.reverse.filter
      (fun b => b.state == BindingState.Live && b.kind == ValueKind.MoveOnly)
    ).map (fun b => ⟨b.name, b.declared_at⟩)

/-- Modelled from the spec: the fatal condition — a structurally malformed
input such as an unmatched `BlockExit` (§6, §7); missing from `src/`.  It
carries the instruction index at which the pass aborted. -/
structure MalformedInput where
  location : Nat
deriving DecidableEq

/-- Modelled from the spec: advance to the next instruction; missing from
`src/`. -/
def bump (S : CheckState) : CheckState :=
  { S with idx := S.idx + 1 }

/-- Modelled from the spec: the Move Checker's action on one IR instruction
(§4.3); missing from `src/`.  Every violation is recorded and the walk
continues; only a structurally malformed input (a `BlockExit` with no open
block) aborts, as `MalformedInput`. -/
def stepInstr (S : CheckState) : Instr → Except MalformedInput CheckState
  | Instr.declare x e =>
    match e with
    | Expr.lit k => Except.ok (bump (declareB S x k))
    | Expr.ident y =>
      let p := consumeRead S y
      Except.ok (bump (declareB p.1 x p.2))
    | Expr.clone y =>
      let p := cloneRead S y
      Except.ok (bump (declareB p.1 x p.2))
  | Instr.read y => Except.ok (bump (plainRead S y))
  | Instr.call args =>
    Except.ok (bump (args.foldl (fun s a => (consumeRead s a).1) S))
  | Instr.blockEnter => Except.ok (bump { S with scopes := [] :: S.scopes })
  | Instr.blockExit =>
    match S.scopes with
    | top :: rest =>
      match rest with
      | [] => Except.error ⟨S.idx⟩
      | _ :: _ =>
        Except.ok (bump { S with scopes := rest,
                                 releases := S.releases ++ dropPlan top })
    | [] => Except.error ⟨S.idx⟩

/-- Modelled from the spec: the single left-to-right walk of the instruction
sequence (§4.3); missing from `src/`. -/
def runAux (S : CheckState) : List Instr → Except MalformedInput CheckState
  | [] => Except.ok S
  | i :: is =>
    match stepInstr S i with
    | Except.error e => Except.error e
    | Except.ok S2 => runAux S2 is

/-- Modelled from the spec: the state at the start of a pass — one open root
scope, no diagnostics, no releases; missing from `src/`. -/
def initState : CheckState :=
  ⟨[[]], [], [], 0⟩

/-- Modelled from the spec: at the end of the pass every still-open scope
(the root included) exits, so its still-`Live` `MoveOnly` bindings are
released by the Scope/Drop Planner; missing from `src/`. -/
def drain (S : CheckState) : CheckState :=
  { S with scopes := [],
           releases := S.releases ++ (S.scopes.map dropPlan).flatten }

/-- Modelled from the spec: the pass result the caller inspects,
`{ violations, releases, ok }` with `ok` true iff no violation was recorded
(§6); missing from `src/`. -/
structure CheckResult where
  violations : List Violation
  releases : List Release
  ok : Bool
deriving DecidableEq

/-- Modelled from the spec: one whole analysis pass (§4.3, §6); missing from
`src/`.  `MalformedInput` surfaces as an explicit failure result distinct
from the violation list; otherwise the pass reaches the end of the sequence
and reports the collected diagnostics and the release plan. -/
def check (instrs : List Instr) : Except MalformedInput CheckResult :=
  match runAux initState instrs with
  | Except.error e => Except.error e
  | Except.ok S =>
    let T := drain S
    Except.ok ⟨T.violations, T.releases, T.violations.isEmpty⟩

/-- Modelled from the spec: structural well-formedness of an instruction
sequence relative to a number of open (non-root) blocks — every `BlockExit`
closes a previously opened block (§6); missing from `src/`. -/
def wellScoped : Nat → List Instr → Bool
  | _, [] => true
  | d, Instr.blockEnter :: is => wellScoped (d + 1) is
  | d, Instr.blockExit :: is =>
    match d with
    | 0 => false
    | e + 1 => wellScoped e is
  | d, Instr.declare _ _ :: is => wellScoped d is
  | d, Instr.read _ :: is => wellScoped d is
  | d, Instr.call _ :: is => wellScoped d is

/-- All bindings currently in the Binding Table, innermost scope first. -/
def allBindings (S : CheckState) : List Binding :=
  S.scopes.flatten

/-- The state the pass is in after a prefix of the instruction sequence,
when that prefix is well-formed. -/
def stateAfter (instrs : List Instr) : Option CheckState :=
  (runAux initState instrs).toOption

/-- The binding a name denotes after a prefix of the instruction sequence:
a convenience projection used to observe state transitions. -/
def bindingAfter (instrs : List Instr) (y : String) : Option Binding :=
  match stateAfter instrs with
  | none => none
  | some S => lookupB S.scopes y

/-- Embedded from `src/ownership/src/main.rs` (`_takes_and_gives_back`): the
function takes a `String` and returns it, moving it back to the caller. -/
def takes_and_gives_back (a_string : String) : String :=
  a_string

/-- Embedded from `src/ownership/src/main.rs` (`_calculate_length`): Rust's
`String::len` is the length of the string's contents in bytes, i.e. the
UTF-8 byte size. -/
def rustStringLen (s : String) : Nat :=
  s.utf8ByteSize

/-- Embedded from `src/ownership/src/main.rs` (`_calculate_length`): computes
the length of the string and returns the pair of the string and its
length. -/
def calculate_length (s : String) : String × Nat :=
  let length := rustStringLen s
  (s, length)

/-- The state transitions a binding held in the Binding Table can undergo
across one instruction of the modelled checker: unchanged, the consuming
`Live → Moved` move, or the documented `UseAfterMove` recovery that takes a
`Moved` binding back to `Live` (or re-moves it when the flagged read is
itself a consumption).  `Dropped` never occurs inside the table and is
absorbing. -/
abbrev allowedTrans (s1 s2 : BindingState) : Prop :=
  s1 = s2 ∨
  (s1 = BindingState.Live ∧ s2 = BindingState.Moved) ∨
  (s1 = BindingState.Moved ∧
    (s2 = BindingState.Live ∨ s2 = BindingState.Moved))

/-- No binding currently held in the Binding Table is in the `Dropped`
state (bindings are dropped only as their scope's frame is discarded). -/
abbrev noDropped (S : CheckState) : Prop :=
  ∀ b ∈ allBindings S, b.state ≠ BindingState.Dropped

/-- The declaration indices of every binding the pass is still tracking: the
released ones followed by the ones still in the Binding Table.  Since one
instruction declares at most one binding, these indices identify bindings
uniquely. -/
def trackedDAs (S : CheckState) : List Nat :=
  S.releases.map Release.declared_at ++
    (allBindings S).map Binding.declared_at

/-- The release-uniqueness invariant of a pass in flight: no declaration
index is tracked twice (so no binding is ever both released and still in
the table, released twice, or declared twice at one instruction), and every
tracked index is of an already-processed instruction. -/
def invDA (S : CheckState) : Prop :=
  (trackedDAs S).Nodup ∧ ∀ d ∈ trackedDAs S, d < S.idx

theorem runAux_append (l1 l2 : List Instr) :
    ∀ S, runAux S (l1 ++ l2) =
      match runAux S l1 with
      | Except.ok T => runAux T l2
      | Except.error e => Except.error e := by
  induction l1 with
  | nil => intro S; simp [runAux]
  | cons i is ih =>
    intro S
    simp only [List.cons_append, runAux]
    cases stepInstr S i with
    | error e => simp
    | ok S2 => simpa using ih S2

theorem plainRead_live (S : CheckState) (y : String) (b : Binding)
    (hl : lookupB S.scopes y = some b) (hs : b.state = BindingState.Live) :
    plainRead S y = S := by
  simp only [plainRead, hl, hs]

theorem plainRead_moved (S : CheckState) (y : String) (b : Binding)
    (hl : lookupB S.scopes y = some b)
    (hs : b.state = BindingState.Moved ∨ b.state = BindingState.Dropped) :
    (plainRead S y).violations =
      S.violations ++ [⟨ViolationKind.UseAfterMove, y, S.idx, b.moved_at⟩] := by
  rcases hs with hs | hs <;> simp [plainRead, hl, hs, report]

theorem runAux_replicate_read (n : Nat) (y : String) :
    ∀ (S : CheckState) (b : Binding), lookupB S.scopes y = some b →
      b.state = BindingState.Live →
      runAux S (List.replicate n (Instr.read y)) =
        Except.ok { S with idx := S.idx + n } := by
  induction n with
  | zero => intro S b _ _; simp [runAux]
  | succ m ih =>
    intro S b hl hs
    rw [List.replicate_succ]
    simp only [runAux, stepInstr, plainRead_live S y b hl hs]
    have hb : (bump S).scopes = S.scopes := rfl
    rw [ih (bump S) b (hb ▸ hl) hs]
    simp [bump, Nat.add_assoc, Nat.add_comm 1 m]

/-- Claim C9: `_takes_and_gives_back` is the identity on `String` values —
for every string, it returns its argument unchanged. -/
theorem takes_and_gives_back_id (a_string : String) :
    takes_and_gives_back a_string = a_string := rfl

/-- Claim C10: `_calculate_length` returns the pair of the input string
unchanged and that string's length in bytes; on `"hello"` it returns
`("hello", 5)`. -/
theorem calculate_length_spec :
    (∀ s : String, calculate_length s = (s, rustStringLen s)) ∧
    calculate_length "hello" = ("hello", 5) := by
  refine ⟨fun s => rfl, ?_⟩
  decide

/-- Claim C1: for a `MoveOnly` binding `y`, checking
`let y = <MoveOnly literal>; let x = y; <read y>` yields exactly one
`UseAfterMove` violation, naming `y` and citing `y`'s move at the
`let x = y` instruction (index 1) as caused-by; and in general a read of a
bound name whose state is `Moved` or `Dropped` is rejected with a
`UseAfterMove` that names the read binding and cites the recorded
move-inducing instruction. -/
theorem move_then_use_flagged :
    (∀ x y : String, x ≠ y →
      check [Instr.declare y (Expr.lit ValueKind.MoveOnly),
             Instr.declare x (Expr.ident y),
             Instr.read y] =
        Except.ok ⟨[⟨ViolationKind.UseAfterMove, y, 2, some 1⟩],
                   [⟨x, 1⟩, ⟨y, 0⟩], false⟩) ∧
    (∀ (S : CheckState) (y : String) (b : Binding),
      lookupB S.scopes y = some b →
      b.state = BindingState.Moved ∨ b.state = BindingState.Dropped →
      (plainRead S y).violations =
        S.violations ++
          [⟨ViolationKind.UseAfterMove, y, S.idx, b.moved_at⟩]) := by
  constructor
  · intro x y h
    have hxy : (x == y) = false := beq_eq_false_iff_ne.mpr h
    have hyx : (y == x) = false := beq_eq_false_iff_ne.mpr (Ne.symm h)
    simp [check, runAux, stepInstr, consumeRead, declareB, lookupB,
          updateScopes, updateScope, scopeHas, markMoved, markLive, plainRead,
          report, bump, dropPlan, drain, initState, hxy, hyx]
  · exact fun S y b hl hs => plainRead_moved S y b hl hs

theorem move_then_use_flagged_witness :
    ("x" : String) ≠ "y" ∧
    check [Instr.declare "y" (Expr.lit ValueKind.MoveOnly),
           Instr.declare "x" (Expr.ident "y"),
           Instr.read "y"] =
      Except.ok ⟨[⟨ViolationKind.UseAfterMove, "y", 2, some 1⟩],
                 [⟨"x", 1⟩, ⟨"y", 0⟩], false⟩ :=
  ⟨by decide, (move_then_use_flagged.1 "x" "y" (by decide))⟩

/-- Claim C3: checking `let y = <literal of kind k>; let x = y.clone();
<read y>; <read x>` yields zero violations for either kind `k`; after the
clone, `x` is a fresh `Live` binding of the same kind as `y` and `y` is
still `Live`; and in general cloning a `Live` source leaves the whole
checker state unchanged while producing a value of the source's kind. -/
theorem clone_restores_independence :
    (∀ (k : ValueKind) (x y : String), x ≠ y →
      check [Instr.declare y (Expr.lit k),
             Instr.declare x (Expr.clone y),
             Instr.read y, Instr.read x] =
        Except.ok ⟨[],
          if k = ValueKind.MoveOnly then [⟨x, 1⟩, ⟨y, 0⟩] else [], true⟩) ∧
    (∀ (k : ValueKind) (x y : String), x ≠ y →
      bindingAfter [Instr.declare y (Expr.lit k),
                    Instr.declare x (Expr.clone y)] y =
        some ⟨y, k, BindingState.Live, 0, none⟩ ∧
      bindingAfter [Instr.declare y (Expr.lit k),
                    Instr.declare x (Expr.clone y)] x =
        some ⟨x, k, BindingState.Live, 1, none⟩) ∧
    (∀ (S : CheckState) (y : String) (b : Binding),
      lookupB S.scopes y = some b → b.state = BindingState.Live →
      cloneRead S y = (S, b.kind)) := by
  refine ⟨?_, ?_, ?_⟩
  · intro k x y h
    have hxy : (x == y) = false := beq_eq_false_iff_ne.mpr h
    have hyx : (y == x) = false := beq_eq_false_iff_ne.mpr (Ne.symm h)
    cases k <;>
    simp [check, runAux, stepInstr, consumeRead, cloneRead, plainRead,
          declareB, lookupB, updateScopes, updateScope, scopeHas, markMoved,
          markLive, report, bump, dropPlan, drain, initState, hxy, hyx]
  · intro k x y h
    have hxy : (x == y) = false := beq_eq_false_iff_ne.mpr h
    have hyx : (y == x) = false := beq_eq_false_iff_ne.mpr (Ne.symm h)
    cases k <;>
    simp [bindingAfter, stateAfter, runAux, stepInstr, cloneRead, plainRead,
          declareB, lookupB, updateScopes, updateScope, scopeHas, markLive,
          report, bump, initState, hxy, hyx, Except.toOption, List.findSome?]
  · intro S y b hl hs
    unfold cloneRead
    rw [hl, plainRead_live S y b hl hs]

theorem clone_restores_independence_witness :
    ("x" : String) ≠ "y" ∧
    check [Instr.declare "y" (Expr.lit ValueKind.MoveOnly),
           Instr.declare "x" (Expr.clone "y"),
           Instr.read "y", Instr.read "x"] =
      Except.ok ⟨[], [⟨"x", 1⟩, ⟨"y", 0⟩], true⟩ ∧
    cloneRead ⟨[[⟨"y", ValueKind.MoveOnly, BindingState.Live, 0, none⟩]],
               [], [], 1⟩ "y" =
      (⟨[[⟨"y", ValueKind.MoveOnly, BindingState.Live, 0, none⟩]],
        [], [], 1⟩, ValueKind.MoveOnly) :=
  ⟨by decide,
   clone_restores_independence.1 ValueKind.MoveOnly "x" "y" (by decide),
   clone_restores_independence.2.2
     ⟨[[⟨"y", ValueKind.MoveOnly, BindingState.Live, 0, none⟩]], [], [], 1⟩
     "y" ⟨"y", ValueKind.MoveOnly, BindingState.Live, 0, none⟩
     (by simp [lookupB, List.findSome?]) rfl⟩

/-- Claim C4: for a `Copyable` binding `y`, checking `let y = <Copyable
literal>; let x = y` followed by any number of reads of `y` yields zero
violations (and no release actions, `Copyable` values having nothing to
release); and in general a read of a `Live` binding leaves the checker
state — in particular the binding's state — unchanged. -/
theorem copy_never_flagged :
    (∀ (n : Nat) (x y : String), x ≠ y →
      check (Instr.declare y (Expr.lit ValueKind.Copyable) ::
             Instr.declare x (Expr.ident y) ::
             List.replicate n (Instr.read y)) =
        Except.ok ⟨[], [], true⟩) ∧
    (∀ (S : CheckState) (y : String) (b : Binding),
      lookupB S.scopes y = some b → b.state = BindingState.Live →
      plainRead S y = S) := by
  constructor
  · intro n x y h
    have hxy : (x == y) = false := beq_eq_false_iff_ne.mpr h
    have hyx : (y == x) = false := beq_eq_false_iff_ne.mpr (Ne.symm h)
    have hstep : runAux initState
        (Instr.declare y (Expr.lit ValueKind.Copyable) ::
         Instr.declare x (Expr.ident y) ::
         List.replicate n (Instr.read y)) =
        runAux ⟨[[⟨y, ValueKind.Copyable, BindingState.Live, 0, none⟩,
                  ⟨x, ValueKind.Copyable, BindingState.Live, 1, none⟩]],
                [], [], 2⟩ (List.replicate n (Instr.read y)) := by
      simp [runAux, stepInstr, consumeRead, declareB, lookupB, updateScopes,
            updateScope, scopeHas, bump, initState, hxy, hyx, List.findSome?]
    have hrep : runAux
        ⟨[[⟨y, ValueKind.Copyable, BindingState.Live, 0, none⟩,
           ⟨x, ValueKind.Copyable, BindingState.Live, 1, none⟩]],
         [], [], 2⟩ (List.replicate n (Instr.read y)) =
        Except.ok ⟨[[⟨y, ValueKind.Copyable, BindingState.Live, 0, none⟩,
                     ⟨x, ValueKind.Copyable, BindingState.Live, 1, none⟩]],
                   [], [], 2 + n⟩ :=
      runAux_replicate_read n y _
        ⟨y, ValueKind.Copyable, BindingState.Live, 0, none⟩
        (by simp [lookupB, List.findSome?]) rfl
    simp [check, hstep.trans hrep, drain, dropPlan]
  · exact fun S y b hl hs => plainRead_live S y b hl hs

theorem copy_never_flagged_witness :
    ("x" : String) ≠ "y" ∧
    check (Instr.declare "y" (Expr.lit ValueKind.Copyable) ::
           Instr.declare "x" (Expr.ident "y") ::
           List.replicate 3 (Instr.read "y")) =
      Except.ok ⟨[], [], true⟩ ∧
    plainRead ⟨[[⟨"y", ValueKind.Copyable, BindingState.Live, 0, none⟩]],
               [], [], 1⟩ "y" =
      ⟨[[⟨"y", ValueKind.Copyable, BindingState.Live, 0, none⟩]],
       [], [], 1⟩ :=
  ⟨by decide,
   copy_never_flagged.1 3 "x" "y" (by decide),
   copy_never_flagged.2
     ⟨[[⟨"y", ValueKind.Copyable, BindingState.Live, 0, none⟩]], [], [], 1⟩
     "y" ⟨"y", ValueKind.Copyable, BindingState.Live, 0, none⟩
     (by decide) rfl⟩

/-- Claim C6: passing the same `MoveOnly` identifier twice to the two
by-value parameters of one call yields exactly one `UseAfterMove`, flagged
against that same call instruction (location 1, caused-by the move at the
same instruction): the first parameter position consumes the value (passing
it once alone yields no violation) and only the second is flagged. -/
theorem first_consumer_wins (y : String) :
    check [Instr.declare y (Expr.lit ValueKind.MoveOnly),
           Instr.call [y, y]] =
      Except.ok ⟨[⟨ViolationKind.UseAfterMove, y, 1, some 1⟩], [], false⟩ ∧
    check [Instr.declare y (Expr.lit ValueKind.MoveOnly),
           Instr.call [y]] =
      Except.ok ⟨[], [], true⟩ := by
  constructor <;>
  simp [check, runAux, stepInstr, consumeRead, declareB, lookupB,
        updateScopes, updateScope, scopeHas, markMoved, report, bump,
        dropPlan, drain, initState]

/-- Claim C7: a block declaring `MoveOnly` bindings `a, b, c` in that order,
all still `Live` at its exit, produces the release plan `[c, b, a]`; and in
general the Scope/Drop Planner releases a scope's bindings in reverse
declaration order, skipping any binding that is not `Live` (and any
`Copyable` binding). -/
theorem drop_ordering :
    (∀ a b c : String, a ≠ b → a ≠ c → b ≠ c →
      check [Instr.blockEnter,
             Instr.declare a (Expr.lit ValueKind.MoveOnly),
             Instr.declare b (Expr.lit ValueKind.MoveOnly),
             Instr.declare c (Expr.lit ValueKind.MoveOnly),
             Instr.blockExit] =
        Except.ok ⟨[], [⟨c, 3⟩, ⟨b, 2⟩, ⟨a, 1⟩], true⟩) ∧
    (∀ s : Scope, dropPlan s =
      ((s.filter (fun b => b.state == BindingState.Live &&
          b.kind == ValueKind.MoveOnly)).reverse).map
        (fun b => ⟨b.name, b.declared_at⟩)) := by
  constructor
  · intro a b c hab hac hbc
    have h1 : (b == a) = false := beq_eq_false_iff_ne.mpr (Ne.symm hab)
    have h2 : (c == a) = false := beq_eq_false_iff_ne.mpr (Ne.symm hac)
    have h3 : (c == b) = false := beq_eq_false_iff_ne.mpr (Ne.symm hbc)
    simp [check, runAux, stepInstr, declareB, lookupB, updateScopes,
          updateScope, scopeHas, report, bump, dropPlan, drain, initState,
          h1, h2, h3, hab, hac, hbc, Ne.symm hab, Ne.symm hac, Ne.symm hbc]
  · intro s
    simp [dropPlan, List.filter_reverse]

theorem drop_ordering_witness :
    ("a" : String) ≠ "b" ∧ ("a" : String) ≠ "c" ∧ ("b" : String) ≠ "c" ∧
    check [Instr.blockEnter,
           Instr.declare "a" (Expr.lit ValueKind.MoveOnly),
           Instr.declare "b" (Expr.lit ValueKind.MoveOnly),
           Instr.declare "c" (Expr.lit ValueKind.MoveOnly),
           Instr.blockExit] =
      Except.ok ⟨[], [⟨"c", 3⟩, ⟨"b", 2⟩, ⟨"a", 1⟩], true⟩ :=
  ⟨by decide, by decide, by decide,
   drop_ordering.1 "a" "b" "c" (by decide) (by decide) (by decide)⟩

theorem updateScopes_length (ss : List Scope) (y : String)
    (f : Binding → Binding) : (updateScopes ss y f).length = ss.length := by
  induction ss with
  | nil => rfl
  | cons s ss ih =>
    unfold updateScopes
    by_cases h : scopeHas s y = true
    · simp [h]
    · simp [h, ih]

theorem consumeRead_scopes_length (S : CheckState) (y : String) :
    ((consumeRead S y).1).scopes.length = S.scopes.length := by
  cases hl : lookupB S.scopes y with
  | none => simp [consumeRead, hl, report]
  | some b =>
    obtain ⟨nm, bk, bs, da, ma⟩ := b
    cases bk <;> cases bs <;>
      simp [consumeRead, hl, report, updateScopes_length]

theorem plainRead_scopes_length (S : CheckState) (y : String) :
    (plainRead S y).scopes.length = S.scopes.length := by
  cases hl : lookupB S.scopes y with
  | none => simp [plainRead, hl, report]
  | some b =>
    obtain ⟨nm, bk, bs, da, ma⟩ := b
    cases bs <;> simp [plainRead, hl, report, updateScopes_length]

theorem cloneRead_scopes_length (S : CheckState) (y : String) :
    ((cloneRead S y).1).scopes.length = S.scopes.length := by
  cases hl : lookupB S.scopes y with
  | none => simp [cloneRead, hl, report]
  | some b => simp [cloneRead, hl, plainRead_scopes_length]

theorem declareB_scopes_length (S : CheckState) (x : String)
    (k : ValueKind) : (declareB S x k).scopes.length = S.scopes.length := by
  obtain ⟨sc, vio, rel, i⟩ := S
  cases sc with
  | nil => rfl
  | cons top rest =>
    by_cases h :
        (top.any fun b => b.name == x && b.state == BindingState.Live) = true
    · simp [declareB, h, report]
    · simp [declareB, h]

theorem foldl_consume_scopes_length (args : List String) :
    ∀ S : CheckState,
      ((args.foldl (fun s a => (consumeRead s a).1) S)).scopes.length =
        S.scopes.length := by
  induction args with
  | nil => intro S; rfl
  | cons a as ih =>
    intro S
    rw [List.foldl_cons, ih ((consumeRead S a).1), consumeRead_scopes_length]

theorem runAux_total (instrs : List Instr) :
    ∀ (d : Nat) (S : CheckState), S.scopes.length = d + 1 →
      wellScoped d instrs = true →
      ∃ T : CheckState, runAux S instrs = Except.ok T := by
  induction instrs with
  | nil => exact fun d S _ _ => ⟨S, rfl⟩
  | cons i is ih =>
    intro d S hlen hws
    cases i with
    | declare x e =>
      cases e with
      | lit k =>
        have h2 : (bump (declareB S x k)).scopes.length = d + 1 := by
          simpa [bump, declareB_scopes_length] using hlen
        obtain ⟨T, hT⟩ := ih d _ h2 (by simpa [wellScoped] using hws)
        exact ⟨T, by simp [runAux, stepInstr, hT]⟩
      | ident y =>
        have h2 :
            (bump (declareB (consumeRead S y).1 x
              (consumeRead S y).2)).scopes.length = d + 1 := by
          simpa [bump, declareB_scopes_length, consumeRead_scopes_length]
            using hlen
        obtain ⟨T, hT⟩ := ih d _ h2 (by simpa [wellScoped] using hws)
        exact ⟨T, by simp [runAux, stepInstr, hT]⟩
      | clone y =>
        have h2 :
            (bump (declareB (cloneRead S y).1 x
              (cloneRead S y).2)).scopes.length = d + 1 := by
          simpa [bump, declareB_scopes_length, cloneRead_scopes_length]
            using hlen
        obtain ⟨T, hT⟩ := ih d _ h2 (by simpa [wellScoped] using hws)
        exact ⟨T, by simp [runAux, stepInstr, hT]⟩
    | read y =>
      have h2 : (bump (plainRead S y)).scopes.length = d + 1 := by
        simpa [bump, plainRead_scopes_length] using hlen
      obtain ⟨T, hT⟩ := ih d _ h2 (by simpa [wellScoped] using hws)
      exact ⟨T, by simp [runAux, stepInstr, hT]⟩
    | call args =>
      have h2 :
          (bump (args.foldl (fun s a => (consumeRead s a).1) S)).scopes.length
            = d + 1 := by
        simpa [bump, foldl_consume_scopes_length] using hlen
      obtain ⟨T, hT⟩ := ih d _ h2 (by simpa [wellScoped] using hws)
      exact ⟨T, by simp [runAux, stepInstr, hT]⟩
    | blockEnter =>
      have h2 : (bump { S with scopes := [] :: S.scopes }).scopes.length =
          (d + 1) + 1 := by simp [bump, hlen]
      obtain ⟨T, hT⟩ := ih (d + 1) _ h2 (by simpa [wellScoped] using hws)
      exact ⟨T, by simp [runAux, stepInstr, hT]⟩
    | blockExit =>
      cases d with
      | zero => simp [wellScoped] at hws
      | succ e =>
        obtain ⟨sc, vio, rel, i⟩ := S
        cases sc with
        | nil => simp at hlen
        | cons top rest =>
          cases rest with
          | nil => simp at hlen
          | cons r rs =>
            have h2 : (⟨r :: rs, vio, rel ++ dropPlan top, i + 1⟩ :
                CheckState).scopes.length = e + 1 := by
              simp only [List.length_cons] at hlen ⊢
              omega
            obtain ⟨T, hT⟩ :=
              ih e _ h2 (by simpa [wellScoped] using hws)
            exact ⟨T, by simp [runAux, stepInstr, bump, hT]⟩

/-- Claim C8: every violation is non-fatal — on any structurally
well-formed instruction sequence the pass reaches the end and returns an
explicit result (`ok`/`violations`), whatever violations were recorded on
the way; the sole fatal condition is a malformed input (an unmatched
`BlockExit`), which aborts the pass immediately — whatever instructions
follow are never reached — surfacing as an explicit `MalformedInput`
failure distinct from the violation list. -/
theorem violations_nonfatal :
    (∀ instrs : List Instr, wellScoped 0 instrs = true →
      ∃ r : CheckResult, check instrs = Except.ok r) ∧
    (∀ rest : List Instr,
      check (Instr.blockExit :: rest) = Except.error ⟨0⟩) := by
  constructor
  · intro instrs h
    obtain ⟨T, hT⟩ := runAux_total instrs 0 initState rfl h
    refine ⟨⟨(drain T).violations, (drain T).releases,
             (drain T).violations.isEmpty⟩, ?_⟩
    simp [check, hT]
  · intro rest
    simp [check, runAux, stepInstr, initState]

theorem violations_nonfatal_witness :
    wellScoped 0 [Instr.declare "y" (Expr.lit ValueKind.MoveOnly),
                  Instr.declare "x" (Expr.ident "y"),
                  Instr.read "y"] = true ∧
    (∃ r : CheckResult,
      check [Instr.declare "y" (Expr.lit ValueKind.MoveOnly),
             Instr.declare "x" (Expr.ident "y"),
             Instr.read "y"] = Except.ok r) ∧
    check [Instr.blockExit, Instr.read "z"] = Except.error ⟨0⟩ :=
  ⟨by decide,
   violations_nonfatal.1 _ (by decide),
   violations_nonfatal.2 [Instr.read "z"]⟩

theorem lookupB_mem (ss : List Scope) (y : String) (b : Binding)
    (h : lookupB ss y = some b) : b ∈ ss.flatten := by
  induction ss with
  | nil => simp [lookupB] at h
  | cons s ss ih =>
    rw [lookupB, List.findSome?_cons] at h
    cases hf : s.find? (fun c => c.name == y) with
    | some b2 =>
      rw [hf] at h
      have hb : b2 = b := Option.some.inj h
      rw [List.flatten_cons]
      exact List.mem_append_left _ (hb ▸ List.mem_of_find?_eq_some hf)
    | none =>
      rw [hf] at h
      rw [List.flatten_cons]
      exact List.mem_append_right _ (ih h)

theorem scopeHas_false_find? (s : Scope) (y : String)
    (h : scopeHas s y = false) :
    s.find? (fun c => c.name == y) = none := by
  rw [List.find?_eq_none]
  exact List.any_eq_false.mp h

theorem updateScope_mem (s : Scope) (y : String) (f : Binding → Binding)
    (b0 : Binding) :
    ∀ b2 ∈ updateScope s y f,
      s.find? (fun c => c.name == y) = some b0 → b2 ∈ s ∨ b2 = f b0 := by
  induction s with
  | nil => intro b2 h2 _; simp [updateScope] at h2
  | cons b bs ih =>
    intro b2 h2 hf
    by_cases hb : (b.name == y) = true
    · rw [List.find?_cons_of_pos (p := fun c => c.name == y) bs hb] at hf
      have hb0 : b = b0 := Option.some.inj hf
      rw [updateScope, if_pos hb] at h2
      rcases List.mem_cons.mp h2 with h2 | h2
      · exact Or.inr (hb0 ▸ h2)
      · exact Or.inl (List.mem_cons_of_mem _ h2)
    · rw [List.find?_cons_of_neg (p := fun c => c.name == y) bs hb] at hf
      rw [updateScope, if_neg hb] at h2
      rcases List.mem_cons.mp h2 with h2 | h2
      · exact Or.inl (h2 ▸ List.mem_cons_self _ _)
      · rcases ih b2 h2 hf with h3 | h3
        · exact Or.inl (List.mem_cons_of_mem _ h3)
        · exact Or.inr h3

theorem updateScopes_mem (ss : List Scope) (y : String)
    (f : Binding → Binding) (b0 : Binding) :
    ∀ b2 ∈ (updateScopes ss y f).flatten,
      lookupB ss y = some b0 → b2 ∈ ss.flatten ∨ b2 = f b0 := by
  induction ss with
  | nil => intro b2 h2 _; simp [updateScopes] at h2
  | cons s ss ih =>
    intro b2 h2 hl
    by_cases hs : scopeHas s y = true
    · rw [updateScopes, if_pos hs, List.flatten_cons] at h2
      cases hf : s.find? (fun c => c.name == y) with
      | none =>
        rcases List.any_eq_true.mp hs with ⟨c, hc, hcy⟩
        exact absurd hcy ((List.find?_eq_none.mp hf) c hc)
      | some b1 =>
        have hb1 : b1 = b0 := by
          rw [lookupB, List.findSome?_cons, hf] at hl
          exact Option.some.inj hl
        rcases List.mem_append.mp h2 with h2 | h2
        · rcases updateScope_mem s y f b1 b2 h2 hf with h3 | h3
          · exact Or.inl (List.flatten_cons ▸ List.mem_append_left _ h3)
          · exact Or.inr (hb1 ▸ h3)
        · exact Or.inl (List.flatten_cons ▸ List.mem_append_right _ h2)
    · have hf : s.find? (fun c => c.name == y) = none :=
        scopeHas_false_find? s y (Bool.eq_false_iff.mpr hs)
      have hl2 : lookupB ss y = some b0 := by
        rw [lookupB, List.findSome?_cons, hf] at hl
        exact hl
      rw [updateScopes, if_neg hs, List.flatten_cons] at h2
      rcases List.mem_append.mp h2 with h2 | h2
      · exact Or.inl (List.flatten_cons ▸ List.mem_append_left _ h2)
      · rcases ih b2 h2 hl2 with h3 | h3
        · exact Or.inl (List.flatten_cons ▸ List.mem_append_right _ h3)
        · exact Or.inr h3

theorem allowedTrans_trans {a b c : BindingState}
    (h1 : allowedTrans a b) (h2 : allowedTrans b c) : allowedTrans a c := by
  cases a <;> cases b <;> cases c <;> simp_all [allowedTrans]

theorem consumeRead_idx (S : CheckState) (y : String) :
    ((consumeRead S y).1).idx = S.idx := by
  cases hl : lookupB S.scopes y with
  | none => simp [consumeRead, hl, report]
  | some b =>
    obtain ⟨nm, bk, bs, da, ma⟩ := b
    cases bk <;> cases bs <;> simp [consumeRead, hl, report]

theorem cloneRead_idx (S : CheckState) (y : String) :
    ((cloneRead S y).1).idx = S.idx := by
  cases hl : lookupB S.scopes y with
  | none => simp [cloneRead, hl, report]
  | some b =>
    have : (plainRead S y).idx = S.idx := by
      cases hl2 : lookupB S.scopes y with
      | none => simp [plainRead, hl2, report]
      | some b2 =>
        obtain ⟨nm, bk, bs, da, ma⟩ := b2
        cases bs <;> simp [plainRead, hl2, report]
    simp [cloneRead, hl, this]

theorem allBindings_bump (S : CheckState) :
    allBindings (bump S) = allBindings S := rfl

theorem plainRead_evolves (S : CheckState) (y : String)
    (hD : noDropped S) :
    ∀ b2 ∈ allBindings (plainRead S y),
      ∃ b ∈ allBindings S, b.declared_at = b2.declared_at ∧
        allowedTrans b.state b2.state := by
  intro b2 h2
  cases hl : lookupB S.scopes y with
  | none =>
    simp only [plainRead, hl, allBindings, report] at h2
    exact ⟨b2, h2, rfl, Or.inl rfl⟩
  | some b0 =>
    have hmem : b0 ∈ allBindings S := lookupB_mem S.scopes y b0 hl
    obtain ⟨nm, bk, bs, da, ma⟩ := b0
    cases bs with
    | Live =>
      rw [plainRead_live S y _ hl rfl] at h2
      exact ⟨b2, h2, rfl, Or.inl rfl⟩
    | Moved =>
      simp only [plainRead, hl, allBindings, report] at h2
      rcases updateScopes_mem S.scopes y markLive _ b2 h2 hl with h3 | h3
      · exact ⟨b2, h3, rfl, Or.inl rfl⟩
      · refine ⟨⟨nm, bk, BindingState.Moved, da, ma⟩, hmem, ?_, ?_⟩
        · rw [h3]; rfl
        · rw [h3]; exact Or.inr (Or.inr ⟨rfl, Or.inl rfl⟩)
    | Dropped => exact absurd rfl (hD _ hmem)

theorem consumeRead_evolves (S : CheckState) (y : String)
    (hD : noDropped S) :
    ∀ b2 ∈ allBindings (consumeRead S y).1,
      ∃ b ∈ allBindings S, b.declared_at = b2.declared_at ∧
        allowedTrans b.state b2.state := by
  intro b2 h2
  cases hl : lookupB S.scopes y with
  | none =>
    simp only [consumeRead, hl, allBindings, report] at h2
    exact ⟨b2, h2, rfl, Or.inl rfl⟩
  | some b0 =>
    have hmem : b0 ∈ allBindings S := lookupB_mem S.scopes y b0 hl
    obtain ⟨nm, bk, bs, da, ma⟩ := b0
    cases bk with
    | Copyable =>
      simp only [consumeRead, hl] at h2
      exact ⟨b2, h2, rfl, Or.inl rfl⟩
    | MoveOnly =>
      cases bs with
      | Live =>
        simp only [consumeRead, hl, allBindings, report] at h2
        rcases updateScopes_mem S.scopes y (markMoved S.idx) _ b2 h2 hl
          with h3 | h3
        · exact ⟨b2, h3, rfl, Or.inl rfl⟩
        · refine ⟨⟨nm, ValueKind.MoveOnly, BindingState.Live, da, ma⟩,
            hmem, ?_, ?_⟩
          · rw [h3]; rfl
          · rw [h3]; exact Or.inr (Or.inl ⟨rfl, rfl⟩)
      | Moved =>
        simp only [consumeRead, hl, allBindings, report] at h2
        rcases updateScopes_mem S.scopes y (markMoved S.idx) _ b2 h2 hl
          with h3 | h3
        · exact ⟨b2, h3, rfl, Or.inl rfl⟩
        · refine ⟨⟨nm, ValueKind.MoveOnly, BindingState.Moved, da, ma⟩,
            hmem, ?_, ?_⟩
          · rw [h3]; rfl
          · rw [h3]; exact Or.inr (Or.inr ⟨rfl, Or.inr rfl⟩)
      | Dropped => exact absurd rfl (hD _ hmem)

theorem cloneRead_evolves (S : CheckState) (y : String)
    (hD : noDropped S) :
    ∀ b2 ∈ allBindings (cloneRead S y).1,
      ∃ b ∈ allBindings S, b.declared_at = b2.declared_at ∧
        allowedTrans b.state b2.state := by
  intro b2 h2
  cases hl : lookupB S.scopes y with
  | none =>
    simp only [cloneRead, hl, allBindings, report] at h2
    exact ⟨b2, h2, rfl, Or.inl rfl⟩
  | some b0 =>
    simp only [cloneRead, hl] at h2
    exact plainRead_evolves S y hD b2 h2

theorem evolves_noDropped {S T : CheckState} (hD : noDropped S)
    (h : ∀ b2 ∈ allBindings T, ∃ b ∈ allBindings S,
      b.declared_at = b2.declared_at ∧ allowedTrans b.state b2.state) :
    noDropped T := by
  intro b2 hb2
  rcases h b2 hb2 with ⟨b, hb, _, ht⟩
  have hbD := hD b hb
  rcases ht with ht | ⟨_, ht⟩ | ⟨_, ht | ht⟩
  · rw [← ht]; exact hbD
  · rw [ht]; simp
  · rw [ht]; simp
  · rw [ht]; simp

theorem foldl_consume_evolves (args : List String) :
    ∀ S : CheckState, noDropped S →
      ∀ b2 ∈ allBindings (args.foldl (fun s a => (consumeRead s a).1) S),
        ∃ b ∈ allBindings S, b.declared_at = b2.declared_at ∧
          allowedTrans b.state b2.state := by
  induction args with
  | nil => intro S _ b2 h2; exact ⟨b2, h2, rfl, Or.inl rfl⟩
  | cons a as ih =>
    intro S hD b2 h2
    rw [List.foldl_cons] at h2
    have hD1 : noDropped (consumeRead S a).1 :=
      evolves_noDropped hD (consumeRead_evolves S a hD)
    rcases ih _ hD1 b2 h2 with ⟨b1, hb1, hda1, ht1⟩
    rcases consumeRead_evolves S a hD b1 hb1 with ⟨b, hb, hda, ht⟩
    exact ⟨b, hb, hda.trans hda1, allowedTrans_trans ht ht1⟩

theorem declareB_evolves (S : CheckState) (x : String) (k : ValueKind) :
    ∀ b2 ∈ allBindings (declareB S x k),
      b2 ∈ allBindings S ∨
        (b2.state = BindingState.Live ∧ b2.declared_at = S.idx) := by
  intro b2 h2
  obtain ⟨sc, vio, rel, i⟩ := S
  cases sc with
  | nil => exact Or.inl h2
  | cons top rest =>
    by_cases h :
        (top.any fun b => b.name == x && b.state == BindingState.Live) = true
    · have h2b : b2 ∈ top ∨
          b2 = ⟨syntheticName x i, k, BindingState.Live, i, none⟩ ∨
          b2 ∈ rest.flatten := by
        simpa [declareB, h, allBindings, report, or_assoc] using h2
      rcases h2b with h3 | h3 | h3
      · exact Or.inl (List.mem_append_left _ h3)
      · exact Or.inr (by rw [h3]; exact ⟨rfl, rfl⟩)
      · exact Or.inl (List.mem_append_right _ h3)
    · have h2b : b2 ∈ top ∨
          b2 = ⟨x, k, BindingState.Live, i, none⟩ ∨
          b2 ∈ rest.flatten := by
        simpa [declareB, h, allBindings, report, or_assoc] using h2
      rcases h2b with h3 | h3 | h3
      · exact Or.inl (List.mem_append_left _ h3)
      · exact Or.inr (by rw [h3]; exact ⟨rfl, rfl⟩)
      · exact Or.inl (List.mem_append_right _ h3)

/-- Claim C5, counterexample: the claimed invariant "`Moved` and `Dropped`
are absorbing — no operation of the checker ever transitions a binding out
of `Moved` or `Dropped`" fails on the modelled checker, because the spec's
own failure-semantics rule resets the offending binding to `Live` after
reporting a `UseAfterMove`.  Concretely, after
`let y = <MoveOnly>; let x = y` the binding `y` is `Moved`, and the next
instruction `read y` (which reports the `UseAfterMove`) leaves the same
binding (`declared_at = 0`) `Live` again. -/
theorem moved_state_reset_counterexample :
    bindingAfter [Instr.declare "y" (Expr.lit ValueKind.MoveOnly),
                  Instr.declare "x" (Expr.ident "y")] "y" =
      some ⟨"y", ValueKind.MoveOnly, BindingState.Moved, 0, some 1⟩ ∧
    bindingAfter [Instr.declare "y" (Expr.lit ValueKind.MoveOnly),
                  Instr.declare "x" (Expr.ident "y"),
                  Instr.read "y"] "y" =
      some ⟨"y", ValueKind.MoveOnly, BindingState.Live, 0, none⟩ :=
  ⟨rfl, rfl⟩

/-- Claim C5 (amended): throughout a pass, a binding held in the Binding
Table transitions only `Live → Moved` (consumption), stays unchanged, or —
as the spec's documented best-effort recovery after reporting a
`UseAfterMove` — returns from `Moved` to `Live` (or is re-moved when the
flagged read is itself a consumption); a table binding is never `Dropped`
(bindings leave the table, conceptually dropped, only when their scope's
frame is discarded at `BlockExit`), so in particular `Dropped` is absorbing.
Every binding after a step is either such an evolution of a binding with
the same `declared_at`, or the freshly declared `Live` binding of the
current instruction. -/
theorem binding_state_transitions_amended :
    ∀ (S : CheckState) (i : Instr) (T : CheckState), noDropped S →
      stepInstr S i = Except.ok T →
      ∀ b2 ∈ allBindings T,
        (b2.state = BindingState.Live ∧ b2.declared_at = S.idx) ∨
        ∃ b ∈ allBindings S, b.declared_at = b2.declared_at ∧
          allowedTrans b.state b2.state := by
  intro S i T hD hstep b2 h2
  cases i with
  | declare x e =>
    cases e with
    | lit k =>
      simp only [stepInstr] at hstep
      rw [Except.ok.injEq] at hstep
      subst hstep
      rw [allBindings_bump] at h2
      rcases declareB_evolves S x k b2 h2 with h3 | h3
      · exact Or.inr ⟨b2, h3, rfl, Or.inl rfl⟩
      · exact Or.inl h3
    | ident y =>
      simp only [stepInstr] at hstep
      rw [Except.ok.injEq] at hstep
      subst hstep
      rw [allBindings_bump] at h2
      rcases declareB_evolves (consumeRead S y).1 x (consumeRead S y).2 b2 h2
        with h3 | h3
      · exact Or.inr (consumeRead_evolves S y hD b2 h3)
      · exact Or.inl ⟨h3.1, h3.2.trans (consumeRead_idx S y)⟩
    | clone y =>
      simp only [stepInstr] at hstep
      rw [Except.ok.injEq] at hstep
      subst hstep
      rw [allBindings_bump] at h2
      rcases declareB_evolves (cloneRead S y).1 x (cloneRead S y).2 b2 h2
        with h3 | h3
      · exact Or.inr (cloneRead_evolves S y hD b2 h3)
      · exact Or.inl ⟨h3.1, h3.2.trans (cloneRead_idx S y)⟩
  | read y =>
    simp only [stepInstr] at hstep
    rw [Except.ok.injEq] at hstep
    subst hstep
    rw [allBindings_bump] at h2
    exact Or.inr (plainRead_evolves S y hD b2 h2)
  | call args =>
    simp only [stepInstr] at hstep
    rw [Except.ok.injEq] at hstep
    subst hstep
    rw [allBindings_bump] at h2
    exact Or.inr (foldl_consume_evolves args S hD b2 h2)
  | blockEnter =>
    simp only [stepInstr] at hstep
    rw [Except.ok.injEq] at hstep
    subst hstep
    rw [allBindings_bump] at h2
    have h2b : b2 ∈ allBindings S := by simpa [allBindings] using h2
    exact Or.inr ⟨b2, h2b, rfl, Or.inl rfl⟩
  | blockExit =>
    cases hsc : S.scopes with
    | nil => simp [stepInstr, hsc] at hstep
    | cons top rest =>
      cases rest with
      | nil => simp [stepInstr, hsc] at hstep
      | cons r rs =>
        simp only [stepInstr, hsc] at hstep
        rw [Except.ok.injEq] at hstep
        subst hstep
        rw [allBindings_bump] at h2
        have h2b : b2 ∈ (r :: rs).flatten := by simpa [allBindings] using h2
        have hmem : b2 ∈ allBindings S := by
          rw [allBindings, hsc, List.flatten_cons]
          exact List.mem_append_right _ h2b
        exact Or.inr ⟨b2, hmem, rfl, Or.inl rfl⟩

theorem binding_state_transitions_amended_witness :
    noDropped ⟨[[⟨"y", ValueKind.MoveOnly, BindingState.Moved, 0, some 1⟩]],
               [], [], 2⟩ ∧
    stepInstr ⟨[[⟨"y", ValueKind.MoveOnly, BindingState.Moved, 0, some 1⟩]],
               [], [], 2⟩ (Instr.read "y") =
      Except.ok ⟨[[⟨"y", ValueKind.MoveOnly, BindingState.Live, 0, none⟩]],
                 [⟨ViolationKind.UseAfterMove, "y", 2, some 1⟩], [], 3⟩ ∧
    (((⟨"y", ValueKind.MoveOnly, BindingState.Live, 0, none⟩ : Binding).state
        = BindingState.Live ∧
      (⟨"y", ValueKind.MoveOnly, BindingState.Live, 0, none⟩ :
        Binding).declared_at = 2) ∨
     ∃ b ∈ allBindings
        ⟨[[⟨"y", ValueKind.MoveOnly, BindingState.Moved, 0, some 1⟩]],
         [], [], 2⟩,
       b.declared_at = (⟨"y", ValueKind.MoveOnly, BindingState.Live, 0,
         none⟩ : Binding).declared_at ∧
       allowedTrans b.state
         (⟨"y", ValueKind.MoveOnly, BindingState.Live, 0, none⟩ :
           Binding).state) :=
  ⟨by decide, rfl,
   binding_state_transitions_amended
     ⟨[[⟨"y", ValueKind.MoveOnly, BindingState.Moved, 0, some 1⟩]],
      [], [], 2⟩
     (Instr.read "y")
     ⟨[[⟨"y", ValueKind.MoveOnly, BindingState.Live, 0, none⟩]],
      [⟨ViolationKind.UseAfterMove, "y", 2, some 1⟩], [], 3⟩
     (by decide) rfl
     ⟨"y", ValueKind.MoveOnly, BindingState.Live, 0, none⟩
     (by decide)⟩

theorem subperm_nodup {α : Type} {l1 l2 : List α}
    (h : List.Subperm l1 l2) (hn : l2.Nodup) : l1.Nodup := by
  obtain ⟨l, hp, hs⟩ := h
  exact (List.Perm.nodup_iff hp).mp (List.Nodup.sublist hs hn)

theorem subperm_append_both {α : Type} {l1 l2 r1 r2 : List α}
    (h1 : List.Subperm l1 l2) (h2 : List.Subperm r1 r2) :
    List.Subperm (l1 ++ r1) (l2 ++ r2) :=
  ((List.subperm_append_left l1).mpr h2).trans
    ((List.subperm_append_right r2).mpr h1)

theorem perm_insert_middle {α : Type} (A B C : List α) (a : α) :
    (A ++ (B ++ a :: C)).Perm ((A ++ (B ++ C)) ++ [a]) := by
  have h2 : (A ++ (B ++ a :: C)).Perm (A ++ a :: (B ++ C)) :=
    List.Perm.append_left A List.perm_middle
  have h3 : (A ++ a :: (B ++ C)).Perm (a :: (A ++ (B ++ C))) :=
    List.perm_middle
  have h4 : (a :: (A ++ (B ++ C))).Perm ((A ++ (B ++ C)) ++ [a]) :=
    @List.perm_append_comm _ [a] (A ++ (B ++ C))
  exact (h2.trans h3).trans h4

theorem updateScope_map_da (s : Scope) (y : String) (f : Binding → Binding)
    (hf : ∀ c, (f c).declared_at = c.declared_at) :
    (updateScope s y f).map Binding.declared_at =
      s.map Binding.declared_at := by
  induction s with
  | nil => rfl
  | cons b bs ih =>
    by_cases hb : (b.name == y) = true
    · simp [updateScope, hb, hf]
    · simp [updateScope, hb, ih]

theorem updateScopes_map_da (ss : List Scope) (y : String)
    (f : Binding → Binding)
    (hf : ∀ c, (f c).declared_at = c.declared_at) :
    ((updateScopes ss y f).flatten).map Binding.declared_at =
      (ss.flatten).map Binding.declared_at := by
  induction ss with
  | nil => rfl
  | cons s ss ih =>
    by_cases hs : scopeHas s y = true
    · simp [updateScopes, hs, updateScope_map_da s y f hf]
    · simp [updateScopes, hs, ih]

theorem updateScopes_map_map_da (ss : List Scope) (y : String)
    (f : Binding → Binding)
    (hf : ∀ c, (f c).declared_at = c.declared_at) :
    (updateScopes ss y f).map (List.map Binding.declared_at) =
      ss.map (List.map Binding.declared_at) := by
  induction ss with
  | nil => rfl
  | cons s ss ih =>
    by_cases hs : scopeHas s y = true
    · simp [updateScopes, hs, updateScope_map_da s y f hf]
    · simp [updateScopes, hs, ih]

theorem trackedDAs_consumeRead (S : CheckState) (y : String) :
    trackedDAs ((consumeRead S y).1) = trackedDAs S := by
  cases hl : lookupB S.scopes y with
  | none => simp [consumeRead, hl, trackedDAs, allBindings, report]
  | some b0 =>
    obtain ⟨nm, bk, bs, da, ma⟩ := b0
    cases bk <;> cases bs <;>
      simp [consumeRead, hl, trackedDAs, allBindings, report,
            updateScopes_map_da S.scopes y (markMoved S.idx) (fun c => rfl),
            updateScopes_map_map_da S.scopes y (markMoved S.idx)
              (fun c => rfl)]

theorem trackedDAs_plainRead (S : CheckState) (y : String) :
    trackedDAs (plainRead S y) = trackedDAs S := by
  cases hl : lookupB S.scopes y with
  | none => simp [plainRead, hl, trackedDAs, allBindings, report]
  | some b0 =>
    obtain ⟨nm, bk, bs, da, ma⟩ := b0
    cases bs <;>
      simp [plainRead, hl, trackedDAs, allBindings, report,
            updateScopes_map_da S.scopes y markLive (fun c => rfl),
            updateScopes_map_map_da S.scopes y markLive (fun c => rfl)]

theorem trackedDAs_cloneRead (S : CheckState) (y : String) :
    trackedDAs ((cloneRead S y).1) = trackedDAs S := by
  cases hl : lookupB S.scopes y with
  | none => simp [cloneRead, hl, trackedDAs, allBindings, report]
  | some b0 => simp [cloneRead, hl, trackedDAs_plainRead]

theorem plainRead_idx (S : CheckState) (y : String) :
    (plainRead S y).idx = S.idx := by
  cases hl : lookupB S.scopes y with
  | none => simp [plainRead, hl, report]
  | some b0 =>
    obtain ⟨nm, bk, bs, da, ma⟩ := b0
    cases bs <;> simp [plainRead, hl, report]

theorem declareB_idx (S : CheckState) (x : String) (k : ValueKind) :
    (declareB S x k).idx = S.idx := by
  obtain ⟨sc, vio, rel, i⟩ := S
  cases sc with
  | nil => rfl
  | cons top rest =>
    by_cases h :
        (top.any fun b => b.name == x && b.state == BindingState.Live) = true
    · simp [declareB, h, report]
    · simp [declareB, h]

theorem foldl_consume_idx (args : List String) :
    ∀ S : CheckState,
      ((args.foldl (fun s a => (consumeRead s a).1) S)).idx = S.idx := by
  induction args with
  | nil => intro S; rfl
  | cons a as ih =>
    intro S
    rw [List.foldl_cons, ih ((consumeRead S a).1), consumeRead_idx]

theorem trackedDAs_foldl_consume (args : List String) :
    ∀ S : CheckState,
      trackedDAs ((args.foldl (fun s a => (consumeRead s a).1) S)) =
        trackedDAs S := by
  induction args with
  | nil => intro S; rfl
  | cons a as ih =>
    intro S
    rw [List.foldl_cons, ih ((consumeRead S a).1), trackedDAs_consumeRead]

theorem declareB_trackedDAs (S : CheckState) (x : String) (k : ValueKind) :
    List.Subperm (trackedDAs (declareB S x k)) (trackedDAs S ++ [S.idx]) := by
  obtain ⟨sc, vio, rel, i⟩ := S
  cases sc with
  | nil => exact List.Sublist.subperm (List.sublist_append_left _ _)
  | cons top rest =>
    by_cases h :
        (top.any fun b => b.name == x && b.state == BindingState.Live) = true
    · have e1 : trackedDAs (declareB ⟨top :: rest, vio, rel, i⟩ x k) =
          rel.map Release.declared_at ++
            (top.map Binding.declared_at ++
              i :: rest.flatten.map Binding.declared_at) := by
        simp [declareB, h, trackedDAs, allBindings, report]
      have e2 : trackedDAs (⟨top :: rest, vio, rel, i⟩ : CheckState) =
          rel.map Release.declared_at ++
            (top.map Binding.declared_at ++
              rest.flatten.map Binding.declared_at) := by
        simp [trackedDAs, allBindings]
      rw [e1, e2]
      exact (perm_insert_middle _ _ _ i).subperm
    · have e1 : trackedDAs (declareB ⟨top :: rest, vio, rel, i⟩ x k) =
          rel.map Release.declared_at ++
            (top.map Binding.declared_at ++
              i :: rest.flatten.map Binding.declared_at) := by
        simp [declareB, h, trackedDAs, allBindings, report]
      have e2 : trackedDAs (⟨top :: rest, vio, rel, i⟩ : CheckState) =
          rel.map Release.declared_at ++
            (top.map Binding.declared_at ++
              rest.flatten.map Binding.declared_at) := by
        simp [trackedDAs, allBindings]
      rw [e1, e2]
      exact (perm_insert_middle _ _ _ i).subperm

theorem dropPlan_map_da (top : Scope) :
    (dropPlan top).map Release.declared_at =
      (top.reverse.filter (fun b => b.state == BindingState.Live &&
        b.kind == ValueKind.MoveOnly)).map Binding.declared_at := by
  simp [dropPlan, List.map_map]

theorem dropPlan_map_da_subperm (top : Scope) :
    List.Subperm ((dropPlan top).map Release.declared_at)
      (top.map Binding.declared_at) := by
  rw [dropPlan_map_da]
  have h1 : List.Sublist
      ((top.reverse.filter (fun b => b.state == BindingState.Live &&
        b.kind == ValueKind.MoveOnly)).map Binding.declared_at)
      (top.reverse.map Binding.declared_at) :=
    List.Sublist.map _ (List.filter_sublist _)
  have h2 : (top.reverse.map Binding.declared_at).Perm
      (top.map Binding.declared_at) := by
    rw [List.map_reverse]
    exact List.reverse_perm _
  exact h1.subperm.trans h2.subperm

theorem flatten_dropPlan_subperm (ss : List Scope) :
    List.Subperm (((ss.map dropPlan).flatten).map Release.declared_at)
      ((ss.flatten).map Binding.declared_at) := by
  induction ss with
  | nil => exact List.Subperm.refl _
  | cons s ss ih =>
    have e1 : (((s :: ss).map dropPlan).flatten).map Release.declared_at =
        (dropPlan s).map Release.declared_at ++
          ((ss.map dropPlan).flatten).map Release.declared_at := by
      simp
    have e2 : ((s :: ss).flatten).map Binding.declared_at =
        s.map Binding.declared_at ++
          (ss.flatten).map Binding.declared_at := by
      simp
    rw [e1, e2]
    exact subperm_append_both (dropPlan_map_da_subperm s) ih

theorem drain_trackedDAs (S : CheckState) :
    List.Subperm (trackedDAs (drain S)) (trackedDAs S) := by
  have e1 : trackedDAs (drain S) =
      S.releases.map Release.declared_at ++
        ((S.scopes.map dropPlan).flatten).map Release.declared_at := by
    simp [drain, trackedDAs, allBindings]
  have e2 : trackedDAs S =
      S.releases.map Release.declared_at ++
        (S.scopes.flatten).map Binding.declared_at := rfl
  rw [e1, e2]
  exact (List.subperm_append_left _).mpr (flatten_dropPlan_subperm S.scopes)

theorem stepInstr_invDA (S : CheckState) (i : Instr) (T : CheckState)
    (hstep : stepInstr S i = Except.ok T) (hI : invDA S) : invDA T := by
  obtain ⟨hN, hB⟩ := hI
  have hidx : S.idx ∉ trackedDAs S := fun hmem => absurd (hB _ hmem) (lt_irrefl _)
  have hN2 : (trackedDAs S ++ [S.idx]).Nodup := by
    rw [List.nodup_append]
    exact ⟨hN, List.nodup_singleton _, List.disjoint_singleton.mpr hidx⟩
  cases i with
  | declare x e =>
    cases e with
    | lit k =>
      simp only [stepInstr] at hstep
      rw [Except.ok.injEq] at hstep
      subst hstep
      have ht : trackedDAs (bump (declareB S x k)) =
          trackedDAs (declareB S x k) := rfl
      have hsp := declareB_trackedDAs S x k
      constructor
      · rw [ht]
        exact subperm_nodup hsp hN2
      · intro d hd
        rw [ht] at hd
        have hdi : (bump (declareB S x k)).idx = S.idx + 1 := by
          simp [bump, declareB_idx]
        rw [hdi]
        rcases List.mem_append.mp (hsp.subset hd) with h3 | h3
        · exact Nat.lt_succ_of_lt (hB d h3)
        · rw [List.mem_singleton.mp h3]
          exact Nat.lt_succ_self _
    | ident y =>
      simp only [stepInstr] at hstep
      rw [Except.ok.injEq] at hstep
      subst hstep
      have ht : trackedDAs
          (bump (declareB (consumeRead S y).1 x (consumeRead S y).2)) =
          trackedDAs (declareB (consumeRead S y).1 x (consumeRead S y).2) :=
        rfl
      have hsp := declareB_trackedDAs (consumeRead S y).1 x (consumeRead S y).2
      rw [trackedDAs_consumeRead, consumeRead_idx] at hsp
      constructor
      · rw [ht]
        exact subperm_nodup hsp hN2
      · intro d hd
        rw [ht] at hd
        have hdi :
            (bump (declareB (consumeRead S y).1 x
              (consumeRead S y).2)).idx = S.idx + 1 := by
          simp [bump, declareB_idx, consumeRead_idx]
        rw [hdi]
        rcases List.mem_append.mp (hsp.subset hd) with h3 | h3
        · exact Nat.lt_succ_of_lt (hB d h3)
        · rw [List.mem_singleton.mp h3]
          exact Nat.lt_succ_self _
    | clone y =>
      simp only [stepInstr] at hstep
      rw [Except.ok.injEq] at hstep
      subst hstep
      have ht : trackedDAs
          (bump (declareB (cloneRead S y).1 x (cloneRead S y).2)) =
          trackedDAs (declareB (cloneRead S y).1 x (cloneRead S y).2) := rfl
      have hsp := declareB_trackedDAs (cloneRead S y).1 x (cloneRead S y).2
      rw [trackedDAs_cloneRead, cloneRead_idx] at hsp
      constructor
      · rw [ht]
        exact subperm_nodup hsp hN2
      · intro d hd
        rw [ht] at hd
        have hdi :
            (bump (declareB (cloneRead S y).1 x
              (cloneRead S y).2)).idx = S.idx + 1 := by
          simp [bump, declareB_idx, cloneRead_idx]
        rw [hdi]
        rcases List.mem_append.mp (hsp.subset hd) with h3 | h3
        · exact Nat.lt_succ_of_lt (hB d h3)
        · rw [List.mem_singleton.mp h3]
          exact Nat.lt_succ_self _
  | read y =>
    simp only [stepInstr] at hstep
    rw [Except.ok.injEq] at hstep
    subst hstep
    have ht : trackedDAs (bump (plainRead S y)) = trackedDAs S := by
      have : trackedDAs (bump (plainRead S y)) =
          trackedDAs (plainRead S y) := rfl
      rw [this, trackedDAs_plainRead]
    have hdi : (bump (plainRead S y)).idx = S.idx + 1 := by
      simp [bump, plainRead_idx]
    exact ⟨ht ▸ hN, fun d hd =>
      hdi ▸ Nat.lt_succ_of_lt (hB d (ht ▸ hd))⟩
  | call args =>
    simp only [stepInstr] at hstep
    rw [Except.ok.injEq] at hstep
    subst hstep
    have ht : trackedDAs
        (bump (args.foldl (fun s a => (consumeRead s a).1) S)) =
        trackedDAs S := by
      have : trackedDAs
          (bump (args.foldl (fun s a => (consumeRead s a).1) S)) =
          trackedDAs (args.foldl (fun s a => (consumeRead s a).1) S) := rfl
      rw [this, trackedDAs_foldl_consume]
    have hdi : (bump (args.foldl (fun s a => (consumeRead s a).1) S)).idx =
        S.idx + 1 := by
      simp [bump, foldl_consume_idx]
    exact ⟨ht ▸ hN, fun d hd =>
      hdi ▸ Nat.lt_succ_of_lt (hB d (ht ▸ hd))⟩
  | blockEnter =>
    simp only [stepInstr] at hstep
    rw [Except.ok.injEq] at hstep
    subst hstep
    have ht : trackedDAs (bump { S with scopes := [] :: S.scopes }) =
        trackedDAs S := rfl
    exact ⟨ht ▸ hN, fun d hd =>
      Nat.lt_succ_of_lt (hB d (ht ▸ hd))⟩
  | blockExit =>
    cases hsc : S.scopes with
    | nil => simp [stepInstr, hsc] at hstep
    | cons top rest =>
      cases rest with
      | nil => simp [stepInstr, hsc] at hstep
      | cons r rs =>
        simp only [stepInstr, hsc] at hstep
        rw [Except.ok.injEq] at hstep
        have e3 : trackedDAs T =
            S.releases.map Release.declared_at ++
              ((dropPlan top).map Release.declared_at ++
                ((r :: rs).flatten).map Binding.declared_at) := by
          rw [← hstep]
          simp [trackedDAs, allBindings, bump]
        have e4 : trackedDAs S =
            S.releases.map Release.declared_at ++
              (top.map Binding.declared_at ++
                ((r :: rs).flatten).map Binding.declared_at) := by
          simp [trackedDAs, allBindings, hsc]
        have hsp : List.Subperm (trackedDAs T) (trackedDAs S) := by
          rw [e3, e4]
          exact (List.subperm_append_left _).mpr
            ((List.subperm_append_right _).mpr (dropPlan_map_da_subperm top))
        constructor
        · exact subperm_nodup hsp hN
        · intro d hd
          have hdi : T.idx = S.idx + 1 := by rw [← hstep]; rfl
          rw [hdi]
          exact Nat.lt_succ_of_lt (hB d (hsp.subset hd))

theorem runAux_invDA (instrs : List Instr) :
    ∀ S T : CheckState, invDA S → runAux S instrs = Except.ok T →
      invDA T := by
  induction instrs with
  | nil =>
    intro S T hI h
    rw [runAux] at h
    rw [← Except.ok.inj h]
    exact hI
  | cons i is ih =>
    intro S T hI h
    rw [runAux] at h
    cases hstep : stepInstr S i with
    | error e => rw [hstep] at h; exact absurd h (by simp)
    | ok S2 =>
      rw [hstep] at h
      exact ih S2 T (stepInstr_invDA S i S2 hstep hI) h

theorem invDA_initState : invDA initState := by
  constructor
  · simp [trackedDAs, initState, allBindings]
  · intro d hd
    simp [trackedDAs, initState, allBindings] at hd

/-- Claim C2: across any valid instruction sequence, the Scope/Drop Planner
emits at most one release action per binding — the declaration indices of
the final release plan are pairwise distinct; a still-`Live` `MoveOnly`
binding of an exiting scope receives exactly one release action; and every
emitted release action is for a `Live` `MoveOnly` binding of the exiting
scope, so `Copyable` (and already-`Moved`) bindings receive none. -/
theorem at_most_one_release :
    (∀ (instrs : List Instr) (r : CheckResult),
      check instrs = Except.ok r →
      (r.releases.map Release.declared_at).Nodup) ∧
    (∀ s : Scope, (s.map Binding.declared_at).Nodup →
      ∀ b ∈ s, b.state = BindingState.Live → b.kind = ValueKind.MoveOnly →
        (dropPlan s).count ⟨b.name, b.declared_at⟩ = 1) ∧
    (∀ (s : Scope) (r : Release), r ∈ dropPlan s →
      ∃ b ∈ s, r = ⟨b.name, b.declared_at⟩ ∧
        b.kind = ValueKind.MoveOnly ∧ b.state = BindingState.Live) := by
  refine ⟨?_, ?_, ?_⟩
  · intro instrs r hc
    cases hr : runAux initState instrs with
    | error e =>
      rw [check, hr] at hc
      exact absurd hc (by simp)
    | ok S =>
      have hinv := runAux_invDA instrs initState S invDA_initState hr
      simp only [check, hr] at hc
      rw [Except.ok.injEq] at hc
      have hN := subperm_nodup (drain_trackedDAs S) hinv.1
      have e : trackedDAs (drain S) =
          (drain S).releases.map Release.declared_at := by
        simp [trackedDAs, drain, allBindings]
      rw [e] at hN
      rw [← hc]
      exact hN
  · intro s hnd b hb hLive hMO
    have hmem : (⟨b.name, b.declared_at⟩ : Release) ∈ dropPlan s := by
      unfold dropPlan
      exact List.mem_map.mpr
        ⟨b, List.mem_filter.mpr
          ⟨List.mem_reverse.mpr hb, by simp [hLive, hMO]⟩, rfl⟩
    have hndp : (dropPlan s).Nodup := by
      apply List.Nodup.of_map Release.declared_at
      rw [dropPlan_map_da]
      apply List.Nodup.sublist (List.Sublist.map _ (List.filter_sublist _))
      rw [List.map_reverse]
      exact List.nodup_reverse.mpr hnd
    exact List.count_eq_one_of_mem hndp hmem
  · intro s r hr
    unfold dropPlan at hr
    rcases List.mem_map.mp hr with ⟨b, hbf, hb⟩
    rcases List.mem_filter.mp hbf with ⟨hbr, hp⟩
    simp only [Bool.and_eq_true, beq_iff_eq] at hp
    exact ⟨b, List.mem_reverse.mp hbr, hb.symm, hp.2, hp.1⟩

theorem at_most_one_release_witness :
    check [Instr.declare "y" (Expr.lit ValueKind.MoveOnly)] =
      Except.ok ⟨[], [⟨"y", 0⟩], true⟩ ∧
    (([⟨"y", 0⟩] : List Release).map Release.declared_at).Nodup ∧
    (([⟨"a", ValueKind.MoveOnly, BindingState.Live, 0, none⟩] :
        Scope).map Binding.declared_at).Nodup ∧
    (dropPlan [⟨"a", ValueKind.MoveOnly, BindingState.Live, 0,
      none⟩]).count ⟨"a", 0⟩ = 1 ∧
    (∃ b ∈ ([⟨"a", ValueKind.MoveOnly, BindingState.Live, 0, none⟩] :
        Scope), (⟨"a", 0⟩ : Release) = ⟨b.name, b.declared_at⟩ ∧
      b.kind = ValueKind.MoveOnly ∧ b.state = BindingState.Live) :=
  ⟨rfl,
   at_most_one_release.1 [Instr.declare "y" (Expr.lit ValueKind.MoveOnly)]
     ⟨[], [⟨"y", 0⟩], true⟩ rfl,
   by decide,
   at_most_one_release.2.1
     [⟨"a", ValueKind.MoveOnly, BindingState.Live, 0, none⟩] (by decide)
     ⟨"a", ValueKind.MoveOnly, BindingState.Live, 0, none⟩ (by decide)
     rfl rfl,
   at_most_one_release.2.2
     [⟨"a", ValueKind.MoveOnly, BindingState.Live, 0, none⟩] ⟨"a", 0⟩
     (by decide)⟩
